import Mathlib

/-!
Verification of the AfriPlant-Identifier response post-processing pipeline.

The repository is a React component (`MainContainer`, in several near-duplicate
variants) that sends a plant photo to a generative-AI service and post-processes
the returned free text.  This file embeds the pure post-processing logic as
Lean functions over `List Char` (a JS string is modelled as its list of UTF-16
code points) and proves the spec's testable properties about them.

Embedded source functions:
  * the normalization chain applied to `response.text()` inside `analyzeImage`:
    trim, then global replaces of the patterns three-backticks, `\*\*`, `\*`,
    dash-then-`\s*`, and `\n\s*\n` (the last replaced by a newline)
  * `extractPlantProperties` (split on newline, keep colon lines, first five)
  * `extractRelatedQuestions` (regex `/related question[s]?:\s*([\s\S]+?)(?:\n|$)/i`)
  * `extractRelatedWords` (find the "related keywords" line, `split(":")[1]`)
  * `generateKeywords` (whitespace tokens, length > 4, stop-list, Set, first five)
  * the state-update skeleton of `analyzeImage` (guard on no image, error path).
-/

namespace AfriPlant

/-- The character class of the JavaScript regex `\s` (also the set removed by
`String.prototype.trim`): ASCII whitespace plus the Unicode space characters. -/
def isSpace (c : Char) : Bool :=
  c == ' ' || c == '\t' || c == '\n' || c == '\r' ||
  c.toNat == 0x0b || c.toNat == 0x0c || c.toNat == 0xa0 || c.toNat == 0x1680 ||
  (0x2000 ≤ c.toNat && c.toNat ≤ 0x200a) || c.toNat == 0x2028 || c.toNat == 0x2029 ||
  c.toNat == 0x202f || c.toNat == 0x205f || c.toNat == 0x3000 || c.toNat == 0xfeff

/-- The backtick character (code point 96), written via `Char.ofNat`. -/
def btChar : Char := Char.ofNat 96

/-- JavaScript `String.prototype.trim`: drop `\s` characters from both ends. -/
def jsTrim (s : List Char) : List Char :=
  ((s.dropWhile isSpace).reverse.dropWhile isSpace).reverse

/-- `replace(/```/g, "")`: delete each left-to-right non-overlapping occurrence
of three consecutive backticks. -/
def removeTriple : List Char → List Char
  | c1 :: c2 :: c3 :: rest =>
    if c1 = btChar ∧ c2 = btChar ∧ c3 = btChar then removeTriple rest
    else c1 :: removeTriple (c2 :: c3 :: rest)
  | s => s

/-- `replace(/\*\*/g, "")`: delete each left-to-right non-overlapping
occurrence of two consecutive asterisks. -/
def removeStarStar : List Char → List Char
  | c1 :: c2 :: rest =>
    if c1 = '*' ∧ c2 = '*' then removeStarStar rest
    else c1 :: removeStarStar (c2 :: rest)
  | s => s

/-- `replace(/\*/g, "")`: delete every asterisk. -/
def removeStar (s : List Char) : List Char :=
  s.filter (fun c => c ≠ '*')

/-- Scanner for the global replace of dash-then-`\s*` by "".  The flag records whether the scan is
currently inside the `\s*` part of a match (whitespace being absorbed after a
dash); a dash always starts (or extends) a match, and the first character that
is neither absorbed whitespace nor a dash is emitted verbatim. -/
def removeDashWsGo : Bool → List Char → List Char
  | _, [] => []
  | skip, c :: rest =>
    if skip && isSpace c then removeDashWsGo true rest
    else if c = '-' then removeDashWsGo true rest
    else c :: removeDashWsGo false rest

/-- Global replace of dash-then-`\s*` by "": delete every dash together with
the whitespace run following it. -/
def removeDashWs (s : List Char) : List Char := removeDashWsGo false s

/-- The part of `w` after its last newline (used for the greedy backtracking of
`\s*` in `/\n\s*\n/`: the match ends at the last newline of the whitespace
run, leaving the remainder to be rescanned). -/
def afterLastNl (w : List Char) : List Char :=
  (w.reverse.takeWhile (fun c => c ≠ '\n')).reverse

theorem length_takeWhile_lt_of_exists {p : Char → Bool} {l : List Char}
    (h : ∃ c ∈ l, ¬ p c) : (l.takeWhile p).length < l.length := by
  induction l with
  | nil => rcases h with ⟨c, hc, _⟩; cases hc
  | cons a l ih =>
    by_cases hpa : p a
    · rcases h with ⟨c, hc, hcp⟩
      rcases List.mem_cons.mp hc with rfl | hcl
      · exact absurd hpa hcp
      · simpa [List.takeWhile_cons, hpa] using
          Nat.succ_lt_succ (ih ⟨c, hcl, hcp⟩)
    · simp only [List.takeWhile_cons, hpa, if_neg]
      simp [hpa]

theorem afterLastNl_length_lt {w : List Char}
    (h : '\n' ∈ w) : (afterLastNl w).length < w.length := by
  have hrev : ∃ c ∈ w.reverse, ¬ (decide (c ≠ '\n') = true) := by
    exact ⟨'\n', List.mem_reverse.mpr h, by simp⟩
  have := length_takeWhile_lt_of_exists (p := fun c => decide (c ≠ '\n')) hrev
  simpa [afterLastNl] using this

/-- `replace(/\n\s*\n/g, "\n")`: at each newline whose following whitespace
run contains another newline, the (greedy, backtracking) match `\n\s*\n`
consumes through the last newline of that run and is replaced by a single
newline; scanning resumes after the match.  All other characters are copied. -/
def collapseBlank : List Char → List Char
  | [] => []
  | c :: rest =>
    if h : c = '\n' ∧ '\n' ∈ rest.takeWhile isSpace then
      '\n' :: collapseBlank (afterLastNl (rest.takeWhile isSpace) ++ rest.dropWhile isSpace)
    else
      c :: collapseBlank rest
termination_by s => s.length
decreasing_by
  · have h1 : (afterLastNl (rest.takeWhile isSpace)).length <
        (rest.takeWhile isSpace).length := afterLastNl_length_lt h.2
    have h2 : (rest.takeWhile isSpace).length + (rest.dropWhile isSpace).length
        = rest.length := by
      rw [← List.length_append, List.takeWhile_append_dropWhile]
    simp only [List.length_append, List.length_cons]
    omega
  · simp

/-- The full normalization chain applied to the raw AI response inside
`analyzeImage` (trim, strip code fences, strip `**`, strip `*`, strip dashes
with trailing whitespace, collapse blank-line runs). -/
def normalize (s : List Char) : List Char :=
  collapseBlank (removeDashWs (removeStar (removeStarStar (removeTriple (jsTrim s)))))

/-- JavaScript `String.prototype.split` with a single-character separator:
`"".split(sep)` is `[""]`, separators at the ends produce empty fields. -/
def jsSplitChar (sep : Char) : List Char → List (List Char)
  | [] => [[]]
  | c :: rest =>
    if c = sep then [] :: jsSplitChar sep rest
    else
      match jsSplitChar sep rest with
      | [] => [[c]]
      | t :: ts => (c :: t) :: ts

/-- `extractPlantProperties` (identical in both source variants):
`text.split("\n").filter(line that includes ":").slice(0, 5)`. -/
def extractPlantProperties (text : List Char) : List (List Char) :=
  ((jsSplitChar '\n' text).filter (fun l => l.contains ':')).take 5

/-- Case-insensitive literal prefix match: `some r` when `s` begins with `pat`
(compared through `Char.toLower`, `pat` given in lower case), `r` the rest. -/
def ciStrip : List Char → List Char → Option (List Char)
  | [], s => some s
  | _ :: _, [] => none
  | p :: ps, c :: cs => if Char.toLower c = p then ciStrip ps cs else none

/-- One attempt of the marker part `related question[s]?:` (case-insensitive)
of the regex in `extractRelatedQuestions` at the current position: `some rest`
with `rest` the text after the colon on success. -/
def markerRest (s : List Char) : Option (List Char) :=
  match ciStrip ("related question".toList) s with
  | none => none
  | some r =>
    match r with
    | [] => none
    | c :: rest =>
      if c = ':' then some rest
      else if Char.toLower c = 's' then
        match rest with
        | ':' :: rest2 => some rest2
        | _ => none
      else none

/-- Left-to-right scan for the leftmost position where the whole regex
`related question[s]?:\s*([\s\S]+?)(?:\n|$)` (case-insensitive) matches.  The
group needs at least one character, so a marker sitting at the very end of the
input is not a match and the scan continues. -/
def findMarker : List Char → Option (List Char)
  | [] => none
  | c :: cs =>
    match markerRest (c :: cs) with
    | some rest => if rest.isEmpty then findMarker cs else some rest
    | none => findMarker cs

/-- The last character of a list (`' '` on the empty list, which never occurs
at its use site: `findMarker` only returns non-empty remainders). -/
def lastChar : List Char → Char
  | [] => ' '
  | [c] => c
  | _ :: c :: rest => lastChar (c :: rest)

/-- `extractRelatedQuestions` (first `src/unnamed/part_000` variant): match
the regex `related question[s]?:\s*([\s\S]+?)(?:\n|$)` case-insensitively,
then `match[1].split("\n").map(trim).filter(Boolean)`; `[]` when no match.
After the marker, the greedy `\s*` absorbs the whitespace run; the lazy group
then captures up to (excluding) the next newline.  When only whitespace
follows the marker, `\s*` backtracks one character and the group captures
exactly that final whitespace character. -/
def extractRelatedQuestions (text : List Char) : List (List Char) :=
  match findMarker text with
  | none => []
  | some rest =>
    let rest2 := rest.dropWhile isSpace
    let m1 :=
      if rest2.isEmpty then [lastChar rest]
      else rest2.takeWhile (fun c => c ≠ '\n')
    ((jsSplitChar '\n' m1).map jsTrim).filter (fun q => !q.isEmpty)

/-- JavaScript `String.prototype.includes` for a literal pattern: `pat` occurs
as a contiguous substring of `s`. -/
def containsSub (pat : List Char) : List Char → Bool
  | [] => pat.isEmpty
  | c :: cs => pat.isPrefixOf (c :: cs) || containsSub pat cs

/-- JavaScript `String.prototype.toLowerCase`, code point by code point. -/
def lowerStr (s : List Char) : List Char := s.map Char.toLower

/-- `extractRelatedWords` (second `src/unnamed/part_000` variant):
`lines.find(line whose lowercasing includes "related keywords")`, then
`keywordsLine.split(":")[1].split(",").map(trim)`.  `none` models the uncaught
TypeError thrown when `split(":")[1]` is `undefined` (the found line has no
colon); `some none` models "no matching line, state untouched"; `some (some ws)`
models `setRelatedWords ws`. -/
def extractRelatedWords (text : List Char) : Option (Option (List (List Char))) :=
  let lines := jsSplitChar '\n' text
  match lines.find? (fun l => containsSub ("related keywords".toList) (lowerStr l)) with
  | none => some none
  | some kl =>
    match (jsSplitChar ':' kl)[1]? with
    | none => none
    | some seg => some (some ((jsSplitChar ',' seg).map jsTrim))

/-- The stop-list of `generateKeywords` in `src/components/main-container.tsx`. -/
def stopWords : List (List Char) :=
  ["this".toList, "that".toList, "with".toList, "from".toList, "have".toList]

/-- The filter of `generateKeywords`: token longer than four characters whose
lowercasing is not in the stop-list. -/
def keywordOk (w : List Char) : Bool :=
  decide (4 < w.length) && !(stopWords.contains (lowerStr w))

mutual
/-- Scanner for `text.split` on the regex `\s+`: accumulate the current token
(reversed) until a whitespace character closes it. -/
def splitWsGo : List Char → List Char → List (List Char)
  | acc, [] => [acc.reverse]
  | acc, c :: rest =>
    if isSpace c then acc.reverse :: splitWsSkip rest
    else splitWsGo (c :: acc) rest

/-- Scanner state inside a `\s+` separator run: skip the remaining whitespace,
then start the next token (an empty token when the input ends here). -/
def splitWsSkip : List Char → List (List Char)
  | [] => [[]]
  | c :: rest => if isSpace c then splitWsSkip rest else splitWsGo [c] rest
end

/-- JavaScript `text.split` on the regex `\s+`: maximal whitespace runs are
separators; a leading or trailing run yields an empty first or last field. -/
def splitWs (s : List Char) : List (List Char) := splitWsGo [] s

/-- One step of the `forEach` of `generateKeywords`: add the token to the
`Set` (kept as an insertion-ordered duplicate-free list) when it passes the
length and stop-list checks. -/
def kwInsert (ks : List (List Char)) (w : List Char) : List (List Char) :=
  if keywordOk w && !(ks.contains w) then ks ++ [w] else ks

/-- `generateKeywords` from `src/components/main-container.tsx`: whitespace
tokens, keep those longer than four characters not in the stop-list
(case-insensitively), deduplicate via a `Set`, return the first five in
insertion order. -/
def generateKeywords (text : List Char) : List (List Char) :=
  ((splitWs text).foldl kwInsert []).take 5

/-- Analysis predicate (not from the source): the input contains a newline
followed, after whitespace, by another newline — i.e. a match of `\n\s*\n`
remains.  Used to show the blank-line collapse leaves no such match. -/
def hasBlankRun : List Char → Bool
  | [] => false
  | c :: rest =>
    (decide (c = '\n') && decide ('\n' ∈ rest.takeWhile isSpace)) || hasBlankRun rest

/-- Analysis form (not from the source) of the `Set`-insertion loop of
`generateKeywords`: the tokens of `ws` that pass the filter and are not yet in
the accumulated set `ks`, each listed once, at its first occurrence. -/
def kwNew (ks : List (List Char)) : List (List Char) → List (List Char)
  | [] => []
  | w :: ws =>
    if keywordOk w && !(ks.contains w) then w :: kwNew (ks ++ [w]) ws
    else kwNew ks ws

/-- Analysis function (not from the source): index of the first occurrence of
`a` in `l` (length of `l` when absent), used to state first-occurrence order. -/
def firstIdx : List (List Char) → List Char → Nat
  | [], _ => 0
  | b :: l, a => if b = a then 0 else firstIdx l a + 1

/-- A browser `File`: binary content plus MIME type (never inspected by the
post-processing logic; the AI call outcome is a parameter of the model). -/
structure ImgFile where
  data : List Char
  mime : List Char

/-- The component state touched by `analyzeImage` in the first
`src/unnamed/part_000` variant (`useState` hooks of `MainContainer`). -/
structure CompState where
  image : Option ImgFile
  loading : Bool
  result : Option (List Char)
  plantProperties : List (List Char)
  relatedQuestions : List (List Char)

/-- Outcome of the AI invocation (`model.generateContent` / `response.text()`),
an opaque external call: the raw response text, or a rejection. -/
inductive AIOutcome where
  | ok (text : List Char)
  | err (msg : List Char)

/-- The state update performed by one run of `analyzeImage` (first
`src/unnamed/part_000` variant), parameterized by the AI outcome.  Returns the
new state and whether the AI call was reached.  `if (!image) return;` leaves
the state untouched without calling.  Otherwise `setLoading(true)` runs, then
on success the normalized text is stored, properties are extracted from the
normalized text and related questions from the raw text; on rejection the
catch only logs.  Either way the `finally` clears the loading flag. -/
def analyzeImage (s : CompState) (ai : AIOutcome) : CompState × Bool :=
  match s.image with
  | none => (s, false)
  | some _ =>
    match ai with
    | .err _ => ({ s with loading := false }, true)
    | .ok raw =>
      let text := normalize raw
      ({ s with
          loading := false,
          result := some text,
          plantProperties := extractPlantProperties text,
          relatedQuestions := extractRelatedQuestions raw }, true)

/-! ## Supporting lemmas -/

theorem dropWhile_ne_nil_of_exists {p : Char → Bool} {l : List Char}
    (h : ∃ c ∈ l, ¬ p c) : l.dropWhile p ≠ [] := by
  intro hnil
  rcases h with ⟨c, hc, hcp⟩
  exact hcp (List.dropWhile_eq_nil_iff.mp hnil c hc)

theorem head_dropWhile_not {p : Char → Bool} :
    ∀ {l : List Char} {d : Char} {l' : List Char},
      l.dropWhile p = d :: l' → p d = false := by
  intro l
  induction l with
  | nil => intro d l' h; simp at h
  | cons a l ih =>
    intro d l' h
    by_cases hpa : p a
    · exact ih (by simpa [List.dropWhile_cons, hpa] using h)
    · rw [List.dropWhile_cons, if_neg (by simp [hpa])] at h
      cases h
      simpa using hpa

theorem mem_afterLastNl {w : List Char} {c : Char} (h : c ∈ afterLastNl w) :
    c ∈ w ∧ c ≠ '\n' := by
  have h1 : c ∈ w.reverse.takeWhile (fun c => c ≠ '\n') := by
    simpa [afterLastNl, List.mem_reverse] using h
  refine ⟨?_, ?_⟩
  · have := (List.takeWhile_sublist (l := w.reverse) (fun c => c ≠ '\n')).mem h1
    simpa [List.mem_reverse] using this
  · simpa using List.mem_takeWhile_imp h1

theorem lastChar_mem : ∀ {l : List Char}, l ≠ [] → lastChar l ∈ l := by
  intro l
  induction l with
  | nil => intro h; exact absurd rfl h
  | cons a l ih =>
    intro _
    match l, ih with
    | [], _ => simp [lastChar]
    | b :: l', ih =>
      have := ih (by simp)
      simp only [lastChar]
      exact List.mem_cons_of_mem _ this

/-! ### Lemmas about the normalization chain -/

theorem star_not_mem_removeStar (s : List Char) : '*' ∉ removeStar s := by
  intro h
  have := List.of_mem_filter h
  simp at this

theorem mem_removeDashWsGo :
    ∀ {b : Bool} {s : List Char} {c : Char}, c ∈ removeDashWsGo b s → c ∈ s := by
  intro b s
  induction s generalizing b with
  | nil => intro c h; simp [removeDashWsGo] at h
  | cons a s ih =>
    intro c h
    rw [removeDashWsGo] at h
    split at h
    · exact List.mem_cons_of_mem _ (ih h)
    · split at h
      · exact List.mem_cons_of_mem _ (ih h)
      · rcases List.mem_cons.mp h with rfl | h'
        · exact List.mem_cons_self _ _
        · exact List.mem_cons_of_mem _ (ih h')

theorem dash_not_mem_removeDashWsGo :
    ∀ {b : Bool} {s : List Char}, '-' ∉ removeDashWsGo b s := by
  intro b s
  induction s generalizing b with
  | nil => simp [removeDashWsGo]
  | cons a s ih =>
    intro h
    rw [removeDashWsGo] at h
    by_cases h1 : b && isSpace a
    · rw [if_pos h1] at h; exact ih h
    · rw [if_neg h1] at h
      by_cases h2 : a = '-'
      · rw [if_pos h2] at h; exact ih h
      · rw [if_neg h2] at h
        rcases List.mem_cons.mp h with h' | h'
        · exact h2 h'.symm
        · exact ih h'

theorem mem_collapseBlank :
    ∀ {s : List Char} {c : Char}, c ∈ collapseBlank s → c = '\n' ∨ c ∈ s := by
  intro s
  induction s using collapseBlank.induct with
  | case1 => intro c h; simp [collapseBlank] at h
  | case2 a rest h ih =>
    intro c hc
    rw [collapseBlank, dif_pos h] at hc
    rcases List.mem_cons.mp hc with rfl | hc'
    · exact Or.inl rfl
    · rcases ih hc' with rfl | hmem
      · exact Or.inl rfl
      · rcases List.mem_append.mp hmem with h1 | h2
        · exact Or.inr (List.mem_cons_of_mem _
            ((List.takeWhile_sublist _).mem (mem_afterLastNl h1).1))
        · exact Or.inr (List.mem_cons_of_mem _
            ((List.dropWhile_sublist _).mem h2))
  | case3 a rest h ih =>
    intro c hc
    rw [collapseBlank, dif_neg h] at hc
    rcases List.mem_cons.mp hc with rfl | hc'
    · exact Or.inr (List.mem_cons_self _ _)
    · rcases ih hc' with rfl | hmem
      · exact Or.inl rfl
      · exact Or.inr (List.mem_cons_of_mem _ hmem)

theorem star_not_mem_normalize (s : List Char) : '*' ∉ normalize s := by
  intro h
  rcases mem_collapseBlank h with h' | h'
  · simp at h'
  · exact star_not_mem_removeStar _ (mem_removeDashWsGo h')

theorem dash_not_mem_normalize (s : List Char) : '-' ∉ normalize s := by
  intro h
  rcases mem_collapseBlank h with h' | h'
  · simp at h'
  · exact dash_not_mem_removeDashWsGo h'

theorem removeStarStar_eq_self :
    ∀ {s : List Char}, '*' ∉ s → removeStarStar s = s := by
  intro s
  induction s using removeStarStar.induct with
  | case1 c1 c2 rest h ih =>
    intro hs
    exact absurd (by simp [h.1]) hs
  | case2 c1 c2 rest h ih =>
    intro hs
    rw [removeStarStar, if_neg h]
    have : '*' ∉ c2 :: rest := fun hmem => hs (List.mem_cons_of_mem _ hmem)
    rw [ih this]
  | case3 s h =>
    intro _
    match s, h with
    | [], _ => rfl
    | [c], _ => rfl
    | c1 :: c2 :: rest, h => exact absurd rfl (h c1 c2 rest)

theorem removeStar_eq_self {s : List Char} (h : '*' ∉ s) : removeStar s = s := by
  rw [removeStar, List.filter_eq_self]
  intro a ha
  simp only [ne_eq, decide_eq_true_eq]
  exact fun hae => h (hae ▸ ha)

theorem removeDashWsGo_false_eq_self :
    ∀ {s : List Char}, '-' ∉ s → removeDashWsGo false s = s := by
  intro s
  induction s with
  | nil => intro _; rfl
  | cons a s ih =>
    intro h
    have ha : a ≠ '-' := fun hae => h (hae ▸ List.mem_cons_self _ _)
    rw [removeDashWsGo]
    simp only [Bool.false_and, if_neg ha]
    rw [if_neg (by simp), ih (fun hm => h (List.mem_cons_of_mem _ hm))]

theorem collapseBlank_append_of_ne_nl :
    ∀ {w t : List Char}, (∀ x ∈ w, x ≠ '\n') →
      collapseBlank (w ++ t) = w ++ collapseBlank t := by
  intro w
  induction w with
  | nil => intro t _; rfl
  | cons a w ih =>
    intro t h
    have ha : a ≠ '\n' := h a (List.mem_cons_self _ _)
    rw [List.cons_append, collapseBlank,
      dif_neg (fun hc => ha hc.1), ih (fun x hx => h x (List.mem_cons_of_mem _ hx))]
    rfl

theorem takeWhile_append_of_all {p : Char → Bool} :
    ∀ {w t : List Char}, (∀ x ∈ w, p x = true) →
      (w ++ t).takeWhile p = w ++ t.takeWhile p := by
  intro w
  induction w with
  | nil => intro t _; rfl
  | cons a w ih =>
    intro t h
    rw [List.cons_append, List.takeWhile_cons,
      if_pos (h a (List.mem_cons_self _ _)), ih (fun x hx => h x (List.mem_cons_of_mem _ hx))]
    rfl

theorem takeWhile_isSpace_collapseBlank_eq_nil {r : List Char}
    (h : ∀ d l', r = d :: l' → isSpace d = false) :
    (collapseBlank r).takeWhile isSpace = [] := by
  match r with
  | [] => simp [collapseBlank]
  | d :: l' =>
    have hd : isSpace d = false := h d l' rfl
    have hdn : d ≠ '\n' := by
      intro he
      rw [he] at hd
      simp [isSpace] at hd
    rw [collapseBlank, dif_neg (fun hc => hdn hc.1), List.takeWhile_cons, if_neg (by simp [hd])]

theorem hasBlankRun_collapseBlank :
    ∀ {s : List Char}, hasBlankRun (collapseBlank s) = false := by
  intro s
  induction s using collapseBlank.induct with
  | case1 => simp [collapseBlank, hasBlankRun]
  | case2 a rest h ih =>
    rw [collapseBlank, dif_pos h]
    have hrem : collapseBlank (afterLastNl (rest.takeWhile isSpace) ++ rest.dropWhile isSpace)
        = afterLastNl (rest.takeWhile isSpace)
          ++ collapseBlank (rest.dropWhile isSpace) :=
      collapseBlank_append_of_ne_nl (fun x hx => (mem_afterLastNl hx).2)
    rw [hasBlankRun, ih, hrem]
    have htw : (afterLastNl (rest.takeWhile isSpace)
          ++ collapseBlank (rest.dropWhile isSpace)).takeWhile isSpace
        = afterLastNl (rest.takeWhile isSpace) := by
      rw [takeWhile_append_of_all
        (fun x hx => List.mem_takeWhile_imp (mem_afterLastNl hx).1),
        takeWhile_isSpace_collapseBlank_eq_nil
          (fun d l' he => head_dropWhile_not he), List.append_nil]
    rw [htw]
    have hnomem : '\n' ∉ afterLastNl (rest.takeWhile isSpace) :=
      fun hm => (mem_afterLastNl hm).2 rfl
    simp [hnomem]
  | case3 a rest h ih =>
    rw [collapseBlank, dif_neg h, hasBlankRun, ih]
    by_cases ha : a = '\n'
    · subst ha
      have hw : '\n' ∉ rest.takeWhile isSpace := fun hm => h ⟨rfl, hm⟩
      have hwnl : ∀ x ∈ rest.takeWhile isSpace, x ≠ '\n' :=
        fun x hx he => hw (he ▸ hx)
      have hrest : collapseBlank rest
          = rest.takeWhile isSpace ++ collapseBlank (rest.dropWhile isSpace) := by
        conv_lhs => rw [← List.takeWhile_append_dropWhile (p := isSpace) (l := rest)]
        exact collapseBlank_append_of_ne_nl hwnl
      rw [hrest, takeWhile_append_of_all (fun x hx => List.mem_takeWhile_imp hx),
        takeWhile_isSpace_collapseBlank_eq_nil (fun d l' he => head_dropWhile_not he),
        List.append_nil]
      simp [hw]
    · simp [ha]

theorem collapseBlank_eq_self_of_no_blank :
    ∀ {s : List Char}, hasBlankRun s = false → collapseBlank s = s := by
  intro s
  induction s with
  | nil => intro _; simp [collapseBlank]
  | cons a rest ih =>
    intro h
    rw [hasBlankRun, Bool.or_eq_false_iff] at h
    have hcond : ¬(a = '\n' ∧ '\n' ∈ rest.takeWhile isSpace) := by
      intro hc
      have := h.1
      simp [hc.1, hc.2] at this
    rw [collapseBlank, dif_neg hcond, ih h.2]

theorem collapseBlank_idem (s : List Char) :
    collapseBlank (collapseBlank s) = collapseBlank s :=
  collapseBlank_eq_self_of_no_blank hasBlankRun_collapseBlank

/-! ## Claim theorems -/

/-- Claim C1 (corrected).  The normalization chain is not idempotent as
claimed: trimming runs first, so a later removal (of an asterisk, here) can
expose leading whitespace that only a second application trims away.  On the
input `"* a"` one application yields `" a"` and a second yields `"a"`. -/
theorem normalize_not_idempotent :
    normalize (normalize ("* a".toList)) ≠ normalize ("* a".toList) := by
  have h1 : normalize ("* a".toList) = " a".toList := by
    simp [normalize, jsTrim, removeTriple, removeStarStar, removeStar, removeDashWs,
      removeDashWsGo, collapseBlank, isSpace, btChar, afterLastNl]
  rw [h1]
  have h2 : normalize (" a".toList) = "a".toList := by
    simp [normalize, jsTrim, removeTriple, removeStarStar, removeStar, removeDashWs,
      removeDashWsGo, collapseBlank, isSpace, btChar, afterLastNl]
  rw [h2]
  decide

/-- Claim C1 (amended).  Normalize is idempotent on every input whose
normalized form is already trimmed and free of code-fence triples: a second
application can differ only by re-trimming exposed boundary whitespace or by
removing backtick triples newly created by the asterisk/dash removals; all
the other passes (asterisk removals, dash removal, blank-line collapse) are
the identity on any output of Normalize. -/
theorem normalize_idem_conditional (x : List Char)
    (h1 : jsTrim (normalize x) = normalize x)
    (h2 : removeTriple (normalize x) = normalize x) :
    normalize (normalize x) = normalize x := by
  have h3 : removeStarStar (normalize x) = normalize x :=
    removeStarStar_eq_self (star_not_mem_normalize x)
  have h4 : removeStar (normalize x) = normalize x :=
    removeStar_eq_self (star_not_mem_normalize x)
  have h5 : removeDashWs (normalize x) = normalize x := by
    rw [removeDashWs]
    exact removeDashWsGo_false_eq_self (dash_not_mem_normalize x)
  conv_lhs => rw [normalize, h1, h2, h3, h4, h5]
  conv_lhs => rw [normalize]
  conv_rhs => rw [normalize]
  exact collapseBlank_idem _

/-- Witness for C1 (amended): the hypotheses hold at the input `"a"`. -/
theorem normalize_idem_conditional_witness :
    (jsTrim (normalize ("a".toList)) = normalize ("a".toList) ∧
      removeTriple (normalize ("a".toList)) = normalize ("a".toList)) ∧
    normalize (normalize ("a".toList)) = normalize ("a".toList) := by
  have hv : normalize ("a".toList) = "a".toList := by
    simp [normalize, jsTrim, removeTriple, removeStarStar, removeStar, removeDashWs,
      removeDashWsGo, collapseBlank, isSpace, btChar, afterLastNl]
  have e1 : jsTrim (normalize ("a".toList)) = normalize ("a".toList) := by
    rw [hv]; decide
  have e2 : removeTriple (normalize ("a".toList)) = normalize ("a".toList) := by
    rw [hv]; decide
  exact ⟨⟨e1, e2⟩, normalize_idem_conditional _ e1 e2⟩

/-- Claim C10 (confirmed).  The output of Normalize never contains an
asterisk: the global single-asterisk removal deletes them all and the two
later passes (dash removal, blank-line collapse) never emit one. -/
theorem normalize_contains_no_star (s : List Char) :
    (normalize s).contains '*' = false := by
  by_contra h
  rw [Bool.not_eq_false] at h
  exact star_not_mem_normalize s (by simpa using h)

/-- Claim C2 (confirmed).  `extractPlantProperties` returns at most five
entries, each of which is a line of the input containing a colon, and the
returned list is a sublist (hence in source order) of the input's lines. -/
theorem extractPlantProperties_spec (t : List Char) :
    (extractPlantProperties t).length ≤ 5 ∧
    (extractPlantProperties t).Sublist (jsSplitChar '\n' t) ∧
    ∀ l ∈ extractPlantProperties t, l.contains ':' = true := by
  refine ⟨?_, ?_, ?_⟩
  · rw [extractPlantProperties]
    rw [List.length_take]
    exact min_le_left _ _
  · exact (List.take_sublist _ _).trans (List.filter_sublist _)
  · intro l hl
    rw [extractPlantProperties] at hl
    have h1 := List.mem_of_mem_take hl
    simpa using List.of_mem_filter h1

/-- Claim C7 (confirmed).  On the three-line input whose third line is the
literal `"..."`, `extractPlantProperties` returns exactly the two colon-bearing
lines, in source order. -/
theorem extractPlantProperties_aloe :
    extractPlantProperties ("NAME: Aloe Vera\nSPECIES: Aloe barbadensis\n...".toList)
      = ["NAME: Aloe Vera".toList, "SPECIES: Aloe barbadensis".toList] := by
  decide

/-! ### Lemmas about the related-questions regex -/

theorem findMarker_some_ne_nil :
    ∀ {t rest : List Char}, findMarker t = some rest → rest ≠ [] := by
  intro t
  induction t with
  | nil => intro rest h; simp [findMarker] at h
  | cons c cs ih =>
    intro rest h
    rw [findMarker] at h
    cases hm : markerRest (c :: cs) with
    | none => rw [hm] at h; exact ih h
    | some r =>
      rw [hm] at h
      dsimp only at h
      by_cases hr : r.isEmpty
      · rw [if_pos hr] at h; exact ih h
      · rw [if_neg hr] at h
        cases h
        simpa [List.isEmpty_iff] using hr

theorem jsSplitChar_ne_nil {sep : Char} : ∀ {l : List Char}, jsSplitChar sep l ≠ [] := by
  intro l
  match l with
  | [] => simp [jsSplitChar]
  | c :: rest =>
    rw [jsSplitChar]
    by_cases hc : c = sep
    · simp [hc]
    · rw [if_neg hc]
      cases h : jsSplitChar sep rest <;> simp

theorem jsSplitChar_of_not_mem {sep : Char} :
    ∀ {l : List Char}, sep ∉ l → jsSplitChar sep l = [l] := by
  intro l
  induction l with
  | nil => intro _; rfl
  | cons c rest ih =>
    intro h
    have hc : c ≠ sep := fun he => h (he ▸ List.mem_cons_self _ _)
    rw [jsSplitChar, if_neg hc, ih (fun hm => h (List.mem_cons_of_mem _ hm))]

theorem jsTrim_cons_ne_nil {d : Char} {u : List Char} (h : isSpace d = false) :
    jsTrim (d :: u) ≠ [] := by
  rw [jsTrim, List.dropWhile_cons, if_neg (by simp [h])]
  intro hnil
  have : (d :: u).reverse.dropWhile isSpace ≠ [] :=
    dropWhile_ne_nil_of_exists
      ⟨d, List.mem_reverse.mpr (List.mem_cons_self _ _), by simp [h]⟩
  exact this (by simpa using congrArg List.reverse hnil)

theorem jsTrim_single_space {c : Char} (h : isSpace c = true) : jsTrim [c] = [] := by
  rw [jsTrim]
  simp [List.dropWhile_cons, h]

/-- Characterization of `extractRelatedQuestions`: no marker gives `[]`; a
marker followed only by whitespace gives `[]`; otherwise the result is exactly
the single trimmed first line after the marker (whitespace skipped). -/
theorem extractRelatedQuestions_char (t : List Char) :
    (findMarker t = none → extractRelatedQuestions t = []) ∧
    (∀ rest, findMarker t = some rest →
      ((rest.dropWhile isSpace = [] → extractRelatedQuestions t = []) ∧
       (rest.dropWhile isSpace ≠ [] →
         extractRelatedQuestions t =
           [jsTrim ((rest.dropWhile isSpace).takeWhile (fun c => c ≠ '\n'))]))) := by
  constructor
  · intro hm
    rw [extractRelatedQuestions, hm]
  · intro rest hm
    constructor
    · intro hd
      rw [extractRelatedQuestions, hm]
      simp only [hd, List.isEmpty_nil, if_pos]
      have hne : rest ≠ [] := findMarker_some_ne_nil hm
      have hsp : isSpace (lastChar rest) = true :=
        List.dropWhile_eq_nil_iff.mp hd _ (lastChar_mem hne)
      by_cases hnl : lastChar rest = '\n'
      · rw [hnl]
        simp [jsSplitChar, jsTrim]
      · rw [jsSplitChar, if_neg hnl]
        simp [jsSplitChar, jsTrim_single_space hsp]
    · intro hd
      rw [extractRelatedQuestions, hm]
      rcases hcons : rest.dropWhile isSpace with _ | ⟨d, d'⟩
      · exact absurd hcons hd
      · simp only [hcons, List.isEmpty_cons, Bool.false_eq_true, if_false]
        have hnlm : '\n' ∉ (d :: d').takeWhile (fun c => c ≠ '\n') := by
          intro hmem
          have := List.mem_takeWhile_imp hmem
          simp at this
        rw [jsSplitChar_of_not_mem hnlm]
        have hdns : isSpace d = false := head_dropWhile_not hcons
        have hdnl : d ≠ '\n' := by
          intro he; rw [he] at hdns; simp [isSpace] at hdns
        have htk : (d :: d').takeWhile (fun c => c ≠ '\n')
            = d :: d'.takeWhile (fun c => c ≠ '\n') := by
          rw [List.takeWhile_cons, if_pos (by simp [hdnl])]
        have hne2 : jsTrim ((d :: d').takeWhile (fun c => c ≠ '\n')) ≠ [] := by
          rw [htk]
          exact jsTrim_cons_ne_nil hdns
        simp only [List.map_cons, List.map_nil, List.filter_cons]
        simp only [ne_eq, decide_not] at hne2
        simp [List.isEmpty_iff, hne2]

/-- Claim C9 (confirmed).  The regex-based `extractRelatedQuestions` always
returns at most one entry: the lazy capture group stops at the first newline
after the marker. -/
theorem extractRelatedQuestions_length_le_one (t : List Char) :
    (extractRelatedQuestions t).length ≤ 1 := by
  cases hm : findMarker t with
  | none => rw [(extractRelatedQuestions_char t).1 hm]; simp
  | some rest =>
    by_cases hd : rest.dropWhile isSpace = []
    · rw [((extractRelatedQuestions_char t).2 rest hm).1 hd]; simp
    · rw [((extractRelatedQuestions_char t).2 rest hm).2 hd]; simp

/-- Claim C3 (corrected, counterexample).  On an input where two
newline-delimited lines follow the marker, the function returns only the
first, not the claimed list of all following lines. -/
theorem extractRelatedQuestions_not_all_lines :
    extractRelatedQuestions ("related questions:\nA\nB".toList) = ["A".toList] ∧
    extractRelatedQuestions ("related questions:\nA\nB".toList)
      ≠ ["A".toList, "B".toList] := by
  constructor <;> decide

/-- Claim C3 (amended).  For input without the marker the result is the empty
list; for input with the marker the result is at most the single trimmed
first newline-delimited line following it (empty when only whitespace
follows), never the full list of following lines. -/
theorem extractRelatedQuestions_first_line_only (t : List Char) :
    (findMarker t = none → extractRelatedQuestions t = []) ∧
    (∀ rest, findMarker t = some rest →
      ((rest.dropWhile isSpace = [] → extractRelatedQuestions t = []) ∧
       (rest.dropWhile isSpace ≠ [] →
         extractRelatedQuestions t =
           [jsTrim ((rest.dropWhile isSpace).takeWhile (fun c => c ≠ '\n'))]))) :=
  extractRelatedQuestions_char t

/-! ### Lemmas about extractRelatedWords -/

theorem getElem?_one_isSome_iff {α : Type} (l : List α) :
    l[1]?.isSome = true ↔ 1 < l.length := by
  constructor
  · intro h
    by_contra hn
    simp [List.getElem?_eq_none (Nat.le_of_not_lt hn)] at h
  · intro h
    simp [List.getElem?_eq_getElem h]

theorem jsSplitChar_two_le_iff {sep : Char} :
    ∀ {l : List Char}, 2 ≤ (jsSplitChar sep l).length ↔ sep ∈ l := by
  intro l
  induction l with
  | nil => simp [jsSplitChar]
  | cons c rest ih =>
    by_cases hc : c = sep
    · subst hc
      rw [jsSplitChar, if_pos rfl]
      simp only [List.length_cons, List.mem_cons, true_or, iff_true]
      have h1 : jsSplitChar c rest ≠ [] := jsSplitChar_ne_nil
      have h2 : 1 ≤ (jsSplitChar c rest).length := by
        cases h : jsSplitChar c rest with
        | nil => exact absurd h h1
        | cons a l => simp
      omega
    · rw [jsSplitChar, if_neg hc]
      cases h : jsSplitChar sep rest with
      | nil => exact absurd h jsSplitChar_ne_nil
      | cons a l =>
        rw [h] at ih
        simp only [List.length_cons] at ih ⊢
        rw [List.mem_cons]
        constructor
        · intro hle
          exact Or.inr (ih.mp hle)
        · intro hor
          rcases hor with he | hm
          · exact absurd he.symm hc
          · exact ih.mpr hm

/-- Claim C8 (confirmed).  `extractRelatedWords` is total exactly when the
first line containing "related keywords" (case-insensitively), if any,
contains a colon: otherwise `split(":")[1]` is `undefined` and the chained
`.split(",")` throws (modelled by `none`). -/
theorem extractRelatedWords_safe_iff (t : List Char) :
    (extractRelatedWords t).isSome = true ↔
      (∀ kl, (jsSplitChar '\n' t).find?
          (fun l => containsSub ("related keywords".toList) (lowerStr l)) = some kl →
        kl.contains ':' = true) := by
  rw [extractRelatedWords]
  cases hf : (jsSplitChar '\n' t).find?
      (fun l => containsSub ("related keywords".toList) (lowerStr l)) with
  | none =>
    simp only [hf]
    constructor
    · intro _ kl h
      cases h
    · intro _
      rfl
  | some kl =>
    simp only [hf]
    have hiff : ((jsSplitChar ':' kl)[1]?).isSome = true ↔ kl.contains ':' = true := by
      rw [getElem?_one_isSome_iff]
      have h2 : 2 ≤ (jsSplitChar ':' kl).length ↔ ':' ∈ kl := jsSplitChar_two_le_iff
      constructor
      · intro h
        have : ':' ∈ kl := h2.mp (by omega)
        simpa using this
      · intro h
        have : 2 ≤ (jsSplitChar ':' kl).length := h2.mpr (by simpa using h)
        omega
    cases hg : (jsSplitChar ':' kl)[1]? with
    | none =>
      rw [hg] at hiff
      simp only [Option.isSome_none, Bool.false_eq_true, false_iff] at hiff
      constructor
      · intro h
        simp at h
      · intro h
        exact absurd (h kl rfl) hiff
    | some seg =>
      rw [hg] at hiff
      simp only [Option.isSome_some, true_iff] at hiff
      constructor
      · intro _ kl' he
        cases he
        exact hiff
      · intro _
        rfl

/-! ### Lemmas about generateKeywords -/

theorem contains_eq_true_iff {α : Type} [BEq α] [LawfulBEq α] (l : List α) (a : α) :
    l.contains a = true ↔ a ∈ l := by
  simp

theorem firstIdx_cons_self (a : List Char) (l : List (List Char)) :
    firstIdx (a :: l) a = 0 := by
  simp [firstIdx]

theorem firstIdx_cons_ne {b a : List Char} (l : List (List Char)) (h : b ≠ a) :
    firstIdx (b :: l) a = firstIdx l a + 1 := by
  simp [firstIdx, h]

theorem foldl_kwInsert_eq :
    ∀ (ws : List (List Char)) (ks : List (List Char)),
      List.foldl kwInsert ks ws = ks ++ kwNew ks ws := by
  intro ws
  induction ws with
  | nil => intro ks; simp [kwNew]
  | cons w ws ih =>
    intro ks
    rw [List.foldl_cons, ih, kwNew]
    by_cases hc : keywordOk w && !(ks.contains w)
    · rw [if_pos hc]
      rw [kwInsert, if_pos hc, List.append_assoc, List.singleton_append]
    · rw [if_neg hc]
      rw [kwInsert, if_neg hc]

theorem kwNew_mem :
    ∀ {ws ks b}, b ∈ kwNew ks ws → keywordOk b = true ∧ b ∈ ws ∧ b ∉ ks := by
  intro ws
  induction ws with
  | nil => intro ks b h; simp [kwNew] at h
  | cons w ws ih =>
    intro ks b h
    rw [kwNew] at h
    by_cases hc : keywordOk w && !(ks.contains w)
    · rw [if_pos hc] at h
      rw [Bool.and_eq_true, Bool.not_eq_true'] at hc
      rcases List.mem_cons.mp h with rfl | h'
      · refine ⟨hc.1, List.mem_cons_self _ _, ?_⟩
        intro hm
        rw [(contains_eq_true_iff ks b).2 hm] at hc
        exact Bool.noConfusion hc.2
      · rcases ih h' with ⟨hok, hmem, hnot⟩
        exact ⟨hok, List.mem_cons_of_mem _ hmem,
          fun hm => hnot (List.mem_append_left _ hm)⟩
    · rw [if_neg hc] at h
      rcases ih h with ⟨hok, hmem, hnot⟩
      exact ⟨hok, List.mem_cons_of_mem _ hmem, hnot⟩

theorem kwNew_nodup : ∀ {ws ks}, (kwNew ks ws).Nodup := by
  intro ws
  induction ws with
  | nil => intro ks; simp [kwNew]
  | cons w ws ih =>
    intro ks
    rw [kwNew]
    by_cases hc : keywordOk w && !(ks.contains w)
    · rw [if_pos hc]
      refine List.nodup_cons.mpr ⟨?_, ih⟩
      intro hm
      exact (kwNew_mem hm).2.2 (List.mem_append_right _ (List.mem_singleton.mpr rfl))
    · rw [if_neg hc]
      exact ih

theorem kwNew_pairwise :
    ∀ {ws ks}, (kwNew ks ws).Pairwise (fun a b => firstIdx ws a < firstIdx ws b) := by
  intro ws
  induction ws with
  | nil => intro ks; simp [kwNew]
  | cons w ws ih =>
    intro ks
    rw [kwNew]
    by_cases hc : keywordOk w && !(ks.contains w)
    · rw [if_pos hc]
      refine List.pairwise_cons.mpr ⟨?_, ?_⟩
      · intro b hb
        have hbw : b ≠ w := by
          intro he
          exact (kwNew_mem hb).2.2
            (he ▸ List.mem_append_right _ (List.mem_singleton.mpr rfl))
        rw [firstIdx_cons_self, firstIdx_cons_ne _ (Ne.symm hbw)]
        exact Nat.succ_pos _
      · refine List.Pairwise.imp_of_mem ?_ (@ih (ks ++ [w]))
        intro a b ha hb hab
        have haw : a ≠ w := by
          intro he
          exact (kwNew_mem ha).2.2
            (he ▸ List.mem_append_right _ (List.mem_singleton.mpr rfl))
        have hbw : b ≠ w := by
          intro he
          exact (kwNew_mem hb).2.2
            (he ▸ List.mem_append_right _ (List.mem_singleton.mpr rfl))
        rw [firstIdx_cons_ne _ (Ne.symm haw), firstIdx_cons_ne _ (Ne.symm hbw)]
        exact Nat.succ_lt_succ hab
    · rw [if_neg hc]
      rw [Bool.and_eq_true, Bool.not_eq_true'] at hc
      refine List.Pairwise.imp_of_mem ?_ (@ih ks)
      intro a b ha hb hab
      have haw : a ≠ w := by
        intro he
        rcases kwNew_mem ha with ⟨hok, _, hnot⟩
        by_cases hkw : keywordOk w = true
        · have hcont : ks.contains w = true := by
            by_contra hnc
            exact hc ⟨hkw, Bool.eq_false_iff.mpr hnc⟩
          exact hnot (he ▸ (contains_eq_true_iff ks w).1 hcont)
        · rw [he] at hok
          exact hkw hok
      have hbw : b ≠ w := by
        intro he
        rcases kwNew_mem hb with ⟨hok, _, hnot⟩
        by_cases hkw : keywordOk w = true
        · have hcont : ks.contains w = true := by
            by_contra hnc
            exact hc ⟨hkw, Bool.eq_false_iff.mpr hnc⟩
          exact hnot (he ▸ (contains_eq_true_iff ks w).1 hcont)
        · rw [he] at hok
          exact hkw hok
      rw [firstIdx_cons_ne _ (Ne.symm haw), firstIdx_cons_ne _ (Ne.symm hbw)]
      exact Nat.succ_lt_succ hab

/-- Claim C5 (confirmed).  `generateKeywords` returns at most five entries,
without duplicates, each a whitespace token of the input longer than four
characters whose lowercasing is not a stop-listed word, and the entries are
ordered by first occurrence in the token stream. -/
theorem generateKeywords_spec (t : List Char) :
    (generateKeywords t).length ≤ 5 ∧
    (generateKeywords t).Nodup ∧
    (∀ w ∈ generateKeywords t,
      w ∈ splitWs t ∧ 4 < w.length ∧ stopWords.contains (lowerStr w) = false) ∧
    (generateKeywords t).Pairwise
      (fun a b => firstIdx (splitWs t) a < firstIdx (splitWs t) b) := by
  have he : generateKeywords t = (kwNew [] (splitWs t)).take 5 := by
    rw [generateKeywords, foldl_kwInsert_eq, List.nil_append]
  refine ⟨?_, ?_, ?_, ?_⟩
  · rw [he, List.length_take]
    exact min_le_left _ _
  · rw [he]
    exact List.Nodup.sublist (List.take_sublist _ _) kwNew_nodup
  · intro w hw
    rw [he] at hw
    rcases kwNew_mem (List.mem_of_mem_take hw) with ⟨hok, hmem, _⟩
    rw [keywordOk, Bool.and_eq_true, decide_eq_true_eq, Bool.not_eq_true'] at hok
    exact ⟨hmem, hok.1, hok.2⟩
  · rw [he]
    exact List.Pairwise.sublist (List.take_sublist _ _) kwNew_pairwise

/-- Claim C4 (confirmed).  When the AI call is reached (an image is present)
and it fails, `analyzeImage` leaves the result at its pre-call value of null
and ends with the loading flag back at its not-loading value: the catch only
logs and the finally clears the flag; no retry happens (the run produces a
single final state). -/
theorem analyzeImage_err_state (s : CompState) (msg : List Char)
    (himg : s.image.isSome = true) (hres : s.result = none) :
    (analyzeImage s (.err msg)).1.result = none ∧
    (analyzeImage s (.err msg)).1.loading = false := by
  rcases hi : s.image with _ | f
  · rw [hi] at himg
    simp at himg
  · rw [analyzeImage.eq_def, hi]
    exact ⟨hres, rfl⟩

/-- Witness for C4: a concrete state with an image selected and no result. -/
theorem analyzeImage_err_state_witness :
    ((CompState.mk (some ⟨[], []⟩) false none [] []).image.isSome = true ∧
      (CompState.mk (some ⟨[], []⟩) false none [] []).result = none) ∧
    ((analyzeImage (CompState.mk (some ⟨[], []⟩) false none [] []) (.err [])).1.result = none ∧
      (analyzeImage (CompState.mk (some ⟨[], []⟩) false none [] []) (.err [])).1.loading = false) :=
  ⟨⟨rfl, rfl⟩, analyzeImage_err_state _ [] rfl rfl⟩

/-- Claim C6 (confirmed).  With no image selected, triggering analyze performs
no AI call and returns the component state unchanged, whatever the would-be
call outcome. -/
theorem analyzeImage_no_image (s : CompState) (ai : AIOutcome)
    (h : s.image = none) : analyzeImage s ai = (s, false) := by
  rw [analyzeImage.eq_def, h]

/-- Witness for C6: a concrete state with no image selected. -/
theorem analyzeImage_no_image_witness :
    ((CompState.mk none true (some ['x']) [['y']] [['z']]).image = none) ∧
    analyzeImage (CompState.mk none true (some ['x']) [['y']] [['z']]) (.ok ['r'])
      = ((CompState.mk none true (some ['x']) [['y']] [['z']]), false) :=
  ⟨rfl, analyzeImage_no_image _ _ rfl⟩

end AfriPlant
